import Mathlib

/-!
Shallow embedding of the multipart/chunked object-storage bindings
(S3 per-key variant, S3 shared-field variant, Azure block-blob variant).

Store calls issued by the code are recorded in an explicit trace; the
responses of the external store (which the code consumes) are passed in as
explicit parameters (`Option` results, `none` modelling a store error).
Byte payloads are `List Nat`; the hex transport encoding of the `data`
metadata value is elided (the Go code decodes it with `hex.DecodeString`,
ignoring errors, before any of the behaviour modelled here).
-/

namespace Spec2Proof

/-- `s3.CompletedPart`: the ETag and part number recorded for one
uploaded part. -/
structure CompletedPart where
  eTag : String
  partNumber : Int
  deriving DecidableEq, Repr, Inhabited

/-- The fields of `s3.CreateMultipartUploadOutput` the code reads
(Bucket, Key, UploadId). -/
structure MultipartUploadOutput where
  bucket : String
  key : String
  uploadId : String
  deriving DecidableEq, Repr, Inhabited

/-- One call issued against the external S3 store. -/
inductive StoreCall where
  | createMultipart (bucket key : String)
  | uploadPart (bucket key uploadId : String) (partNumber : Int)
      (body : List Nat) (contentLength : Int)
  | abortMultipart (bucket key uploadId : String)
  | completeMultipart (bucket key uploadId : String) (parts : List CompletedPart)
  deriving DecidableEq, Repr

/-- Is this trace entry an upload-part call? -/
def StoreCall.isUpload : StoreCall → Bool
  | .uploadPart _ _ _ _ _ _ => true
  | _ => false

/-- Is this trace entry an abort call? -/
def StoreCall.isAbort : StoreCall → Bool
  | .abortMultipart _ _ _ => true
  | _ => false

/-- Is this trace entry a complete-multipart call? -/
def StoreCall.isComplete : StoreCall → Bool
  | .completeMultipart _ _ _ _ => true
  | _ => false

/-- Is this trace entry the upload of part number `pn`? -/
def StoreCall.isUploadFor (pn : Int) : StoreCall → Bool
  | .uploadPart _ _ _ n _ _ => n = pn
  | _ => false

/-- The parts list of the first complete-multipart call of a trace,
if any. -/
def completeParts (tr : List StoreCall) : Option (List CompletedPart) :=
  match tr.find? StoreCall.isComplete with
  | some (.completeMultipart _ _ _ parts) => some parts
  | _ => none

/-- The body of the first upload-part call of a trace carrying part
number `pn` (empty if there is none). -/
def uploadBody (tr : List StoreCall) (pn : Int) : List Nat :=
  match tr.find? (StoreCall.isUploadFor pn) with
  | some (.uploadPart _ _ _ _ b _) => b
  | _ => []

/-- The object the store assembles from a trace: the concatenation, over
the parts listed in the complete-multipart call in their listed order, of
the bytes uploaded under each listed part number. -/
def assembledObject (tr : List StoreCall) : List Nat :=
  match completeParts tr with
  | some parts => (parts.map fun cp => uploadBody tr cp.partNumber).flatten
  | none => []

/-! ### A stable insertion sort, modelling Go's `sort.SliceStable` -/

/-- Insert `p` into `l` before the first element `q` with `less p q`;
with `l` sorted this keeps `p` after every earlier element it ties with,
as Go's stable sort does. -/
def insertStable {α : Type} (less : α → α → Bool) : List α → α → List α
  | [], p => [p]
  | q :: qs, p => if less p q then p :: q :: qs else q :: insertStable less qs p

/-- Stable sort by the strict comparator `less`, modelling
`sort.SliceStable(x, less)`. -/
def sortSliceStable {α : Type} (less : α → α → Bool) (l : List α) : List α :=
  l.foldl (insertStable less) []

/-! ## The per-key S3 variant (`backups map[string]Backup`) -/

namespace S3PerKey

/-- `type Part struct { CompletedPart *s3.CompletedPart; Offset int64 }`. -/
structure Part where
  completedPart : CompletedPart
  offset : Int
  deriving DecidableEq, Repr, Inhabited

/-- `type Backup struct { PartNum int; MultipartResponse; CompletedParts []Part }`. -/
structure Backup where
  partNum : Int
  multipartResponse : MultipartUploadOutput
  completedParts : List Part
  deriving DecidableEq, Repr, Inhabited

/-- Lookup in the Go map `backups map[string]Backup`, modelled as an
association list. -/
def lookupB : List (String × Backup) → String → Option Backup
  | [], _ => none
  | p :: rest, k => if p.1 = k then some p.2 else lookupB rest k

/-- `delete(s.backups, key)`. -/
def eraseB : List (String × Backup) → String → List (String × Backup)
  | [], _ => []
  | p :: rest, k => if p.1 = k then eraseB rest k else p :: eraseB rest k

/-- `s.backups[key] = v`. -/
def insertB (m : List (String × Backup)) (k : String) (v : Backup) :
    List (String × Backup) :=
  (k, v) :: eraseB m k

/-- The fields of the `AWSS3` receiver that the multipart operations
touch: the configured bucket and the per-key session table. -/
structure State where
  bucket : String
  backups : List (String × Backup)
  deriving DecidableEq, Repr

/-- `initbackup`: create the session for `key` if none is active.
`createResp` is the store's `CreateMultipartUpload` response (`none`
models an error).  The returned `Bool` is true iff a non-nil error is
returned. -/
def initbackup (st : State) (key : String) (createResp : Option MultipartUploadOutput) :
    State × List StoreCall × Bool :=
  match lookupB st.backups key with
  | some _ => (st, [], false)
  | none =>
    match createResp with
    | none => (st, [StoreCall.createMultipart st.bucket key], true)
    | some out =>
        ({ st with backups := insertB st.backups key ⟨1, out, []⟩ },
         [StoreCall.createMultipart st.bucket key], false)

/-- `put`: upload one chunk as its own part.  `offset` is the parsed value
of the `offset` metadata entry (the Go code parses the decimal string with
`strconv.ParseInt`, defaulting to 0 on error); `data` are this call's chunk
bytes; `uploadResp` is the store's `UploadPart` response (`some etag` on
success, `none` an error). -/
def put (st : State) (key : String) (offset : Int) (data : List Nat)
    (createResp : Option MultipartUploadOutput) (uploadResp : Option String) :
    State × List StoreCall × Bool :=
  match initbackup st key createResp with
  | (st1, tr1, e1) =>
    if e1 then (st1, tr1, true)
    else
      let backup := (lookupB st1.backups key).getD default
      let mu := backup.multipartResponse
      let upCall := StoreCall.uploadPart mu.bucket mu.key mu.uploadId backup.partNum
        data (data.length : Int)
      match uploadResp with
      | none =>
          ({ st1 with backups := eraseB st1.backups key },
           tr1 ++ [upCall, StoreCall.abortMultipart mu.bucket mu.key mu.uploadId], true)
      | some etag =>
          let newBackup : Backup :=
            { backup with
                completedParts :=
                  backup.completedParts ++ [⟨⟨etag, backup.partNum⟩, offset⟩],
                partNum := backup.partNum + 1 }
          ({ st1 with backups := insertB st1.backups key newBackup },
           tr1 ++ [upCall], false)

/-- The comparator handed to `sort.SliceStable` in `putblocklist`:
`backup.CompletedParts[i].Offset < backup.CompletedParts[j].Offset`. -/
def lessByOffset (a b : Part) : Bool := decide (a.offset < b.offset)

/-- `putblocklist`: sort the recorded parts by offset, commit, and drop
the session.  `completeErr` is true iff the store's
`CompleteMultipartUpload` call fails; note the code deletes the session
and returns that error without issuing any abort. -/
def putblocklist (st : State) (key : String)
    (createResp : Option MultipartUploadOutput) (completeErr : Bool) :
    State × List StoreCall × Bool :=
  match initbackup st key createResp with
  | (st1, tr1, e1) =>
    if e1 then (st1, tr1, true)
    else
      let backup := (lookupB st1.backups key).getD default
      let mu := backup.multipartResponse
      let sorted := sortSliceStable lessByOffset backup.completedParts
      let parts := sorted.map (·.completedPart)
      ({ st1 with backups := eraseB st1.backups key },
       tr1 ++ [StoreCall.completeMultipart mu.bucket mu.key mu.uploadId parts],
       completeErr)

/-- Run a sequence of `put` calls for one key in which every store call
succeeds: the session (when created) uses `mu` and every `UploadPart`
returns the ETag `""`. -/
def runPuts (st : State) (key : String) (mu : MultipartUploadOutput) :
    List (Int × List Nat) → State × List StoreCall
  | [] => (st, [])
  | (off, d) :: cs =>
    match put st key off d (some mu) (some "") with
    | (st1, tr1, _) =>
      match runPuts st1 key mu cs with
      | (st2, tr2) => (st2, tr1 ++ tr2)

/-- An arbitrary invocation of the multipart operations, together with
the store responses it observes. -/
inductive Op where
  | oput (key : String) (offset : Int) (data : List Nat)
      (createResp : Option MultipartUploadOutput) (uploadResp : Option String)
  | oblocklist (key : String) (createResp : Option MultipartUploadOutput)
      (completeErr : Bool)
  deriving Repr

/-- The state transition of one operation. -/
def stepOp (st : State) : Op → State
  | .oput k off d cr ur => (put st k off d cr ur).1
  | .oblocklist k cr ce => (putblocklist st k cr ce).1

/-- Run a sequence of operations. -/
def runOps (st : State) (ops : List Op) : State := ops.foldl stepOp st

/-- Pair each chunk `(offset, data)` with the part number it is uploaded
under, starting from `m`. -/
def numberFrom (m : Int) : List (Int × List Nat) → List (Int × Int × List Nat)
  | [] => []
  | c :: cs => (m, c) :: numberFrom (m + 1) cs

/-- The upload-part calls a successful run of puts issues, starting at
part number `m`. -/
def expUploads (mu : MultipartUploadOutput) (m : Int) :
    List (Int × List Nat) → List StoreCall
  | [] => []
  | (_, d) :: cs =>
      StoreCall.uploadPart mu.bucket mu.key mu.uploadId m d (d.length : Int) ::
        expUploads mu (m + 1) cs

/-- The `Part` values a successful run of puts records, starting at part
number `m` (every store ETag being `""`). -/
def expParts (m : Int) : List (Int × List Nat) → List Part
  | [] => []
  | (off, _) :: cs => ⟨⟨"", m⟩, off⟩ :: expParts (m + 1) cs

/-- The comparator `sort.SliceStable` would use on offset-tagged chunks:
strictly increasing client-declared offset. -/
def lessByChunkOffset (a b : Int × List Nat) : Bool := decide (a.1 < b.1)

/-- The full store trace of one session: a fresh instance, a sequence of
successful `put` calls for `key`, then a successful `putblocklist`. -/
def sessionTrace (bucket key : String) (mu : MultipartUploadOutput)
    (chunks : List (Int × List Nat)) : List StoreCall :=
  match runPuts ⟨bucket, []⟩ key mu chunks with
  | (st1, tr1) => tr1 ++ (putblocklist st1 key (some mu) false).2.1

/-- The part numbers `[m, m+1, ..., m+n-1]`. -/
def intRange (m : Int) : Nat → List Int
  | 0 => []
  | n + 1 => m :: intRange (m + 1) n

end S3PerKey

/-! ## The shared-field S3 variant (one buffer/session per instance) -/

namespace S3Shared

/-- `MinBufferSize = 5242880` (5 MiB). -/
def MinBufferSize : Nat := 5242880

/-- The multipart-related fields of the `AWSS3` receiver in the
shared-field variant: a single part counter, session, completed-parts
list and pending buffer for the whole instance, shared by all blob keys,
plus the configured bucket. -/
structure State where
  bucket : String
  partNum : Int
  multipartResponse : Option MultipartUploadOutput
  completedParts : List CompletedPart
  buffer : List Nat
  deriving DecidableEq, Repr

/-- The fields as `Init` leaves them (`PartNum = 1`, no session, nil
buffer, nil completed parts). -/
def initState (bucket : String) : State :=
  { bucket := bucket, partNum := 1, multipartResponse := none,
    completedParts := [], buffer := [] }

/-- `put` of the shared-field variant.  The code DISCARDS the error of
`CreateMultipartUpload` (`s.MultipartResponse, _ = ...`), so `createResp`
is stored even when it is `none`.  A `none` result models the nil-pointer
dereference the Go code runs into when the buffer reaches
`MinBufferSize` while `s.MultipartResponse` is still nil (a failed
create): it reads `s.MultipartResponse.Bucket`. -/
def put (st : State) (key : String) (data : List Nat)
    (createResp : Option MultipartUploadOutput) (uploadResp : Option String) :
    Option (State × List StoreCall × Bool) :=
  let st1tr :=
    match st.multipartResponse with
    | some _ => (st, ([] : List StoreCall))
    | none => ({ st with multipartResponse := createResp },
               [StoreCall.createMultipart st.bucket key])
  let st1 := st1tr.1
  let tr1 := st1tr.2
  let st2 := { st1 with buffer := st1.buffer ++ data }
  if st2.buffer.length < MinBufferSize then
    some (st2, tr1, false)
  else
    match st2.multipartResponse with
    | none => none
    | some mu =>
      let upCall := StoreCall.uploadPart mu.bucket mu.key mu.uploadId st2.partNum
        st2.buffer (st2.buffer.length : Int)
      let st3 := { st2 with buffer := [] }
      match uploadResp with
      | none =>
          some ({ st3 with partNum := 1, multipartResponse := none, completedParts := [] },
                tr1 ++ [upCall, StoreCall.abortMultipart mu.bucket mu.key mu.uploadId], true)
      | some etag =>
          some ({ st3 with completedParts := st3.completedParts ++ [CompletedPart.mk etag st3.partNum], partNum := st3.partNum + 1 },
                tr1 ++ [upCall], false)

/-- `putblocklist` of the shared-field variant (it never reads the
request's blob name): a no-op without a session; otherwise it uploads the
remaining buffer as a final part (of any size), then completes.  On a
failed final upload it aborts and resets; on a failed complete it resets
WITHOUT issuing any abort and returns the error. -/
def putblocklist (st : State) (uploadResp : Option String) (completeErr : Bool) :
    State × List StoreCall × Bool :=
  match st.multipartResponse with
  | none => (st, [], false)
  | some mu =>
    let upCall := StoreCall.uploadPart mu.bucket mu.key mu.uploadId st.partNum
      st.buffer (st.buffer.length : Int)
    let st1 := { st with buffer := [] }
    match uploadResp with
    | none =>
        ({ st1 with partNum := 1, multipartResponse := none, completedParts := [] },
         [upCall, StoreCall.abortMultipart mu.bucket mu.key mu.uploadId], true)
    | some etag =>
        let st2 := { st1 with completedParts := st1.completedParts ++ [CompletedPart.mk etag st1.partNum], partNum := st1.partNum + 1 }
        let cCall := StoreCall.completeMultipart mu.bucket mu.key mu.uploadId
          st2.completedParts
        ({ st2 with multipartResponse := none, completedParts := [], partNum := 1 },
         [upCall, cCall], completeErr)

/-- The trace of a shared-variant call result (`[]` when the Go code
crashed on the nil pointer). -/
def callsOf (r : Option (State × List StoreCall × Bool)) : List StoreCall :=
  match r with
  | some x => x.2.1
  | none => []

/-- The error flag of a shared-variant call result (`none` when the Go
code crashed). -/
def errOf (r : Option (State × List StoreCall × Bool)) : Option Bool :=
  match r with
  | some x => some x.2.2
  | none => none

end S3Shared

/-! ## Metadata parsing shared by the `get` operations -/

/-- Helper for `parseInt64`: fold decimal digits, failing on any
non-digit character. -/
def digitsValAux : Option Nat → List Char → Option Nat
  | acc, [] => acc
  | acc, c :: cs =>
      if 48 ≤ c.toNat ∧ c.toNat ≤ 57 then
        digitsValAux (acc.map fun a => 10 * a + (c.toNat - 48)) cs
      else none

/-- The value of a non-empty string of decimal digits, `none` otherwise. -/
def digitsVal? : List Char → Option Nat
  | [] => none
  | l => digitsValAux (some 0) l

/-- `strconv.ParseInt(s, 10, 64)`: an optional sign followed by a
non-empty digit string, checked against the 64-bit range; `none` models a
non-nil error. -/
def parseInt64 (s : String) : Option Int :=
  match s.toList with
  | [] => none
  | '+' :: rest => (digitsVal? rest).bind fun n =>
      if n ≤ 9223372036854775807 then some (n : Int) else none
  | '-' :: rest => (digitsVal? rest).bind fun n =>
      if n ≤ 9223372036854775808 then some (-(n : Int)) else none
  | l => (digitsVal? l).bind fun n =>
      if n ≤ 9223372036854775807 then some (n : Int) else none

/-- The download request `get` of the two S3 variants sends to the store. -/
inductive GetRequest where
  | ranged (bucket key range : String)
  | full (bucket key : String)
  deriving DecidableEq, Repr

/-- Two's-complement wrap-around into the signed 64-bit range, as Go's
`int64` arithmetic performs on overflow.  Wrapping the unbounded value of
an expression once agrees with Go wrapping after every operation, since
both are reduction modulo 2^64 followed by the representative choice in
`[-2^63, 2^63)`. -/
def wrapInt64 (n : Int) : Int :=
  (n + 9223372036854775808) % 18446744073709551616 - 9223372036854775808

/-- `get` of the S3 variants (the code is identical in both files): when
BOTH the `offset` and `count` metadata values parse as integers, a ranged
read with header `"bytes=" + offsetMd + "-" + FormatInt(offset+count-1)`,
the end computed in Go's wrapping `int64` arithmetic; otherwise a
full-object read. -/
def s3Get (bucket blobName offsetMd countMd : String) : GetRequest :=
  match parseInt64 offsetMd, parseInt64 countMd with
  | some offset, some count =>
      .ranged bucket blobName
        ("bytes=" ++ offsetMd ++ "-" ++ toString (wrapInt64 (offset + count - 1)))
  | _, _ => .full bucket blobName

/-! ## The Azure block-blob variant -/

namespace AzureBlob

/-- A call issued against the Azure block-blob store. -/
inductive AzCall where
  | stageBlock (blobName : String) (blockID : List Nat) (body : List Nat)
  | commitBlockList (blobName : String) (blockIDs : List (List Nat))
  deriving DecidableEq, Repr

/-- The session state of the Azure variant: the staged block IDs, as byte
strings (`BlockIDs []string`). -/
structure State where
  blockIDs : List (List Nat)
  deriving DecidableEq, Repr

/-- The block ID `put` builds for the `offset` metadata string: Go
allocates `make([]byte, 64-len(offset))`, which is zero-valued (NUL
bytes) — the loop meant to overwrite it with `'0'` iterates
`len(BlockID)` times while `BlockID` is still `""`, so it never runs —
and prepends it to the offset string.  For offset strings longer than 64
bytes the Go code panics on the negative `make` length; that is outside
this model (theorems assume length ≤ 64). -/
def mkBlockID (offsetStr : String) : List Nat :=
  List.replicate (64 - offsetStr.length) 0 ++ offsetStr.toList.map Char.toNat

/-- Go's `<` on strings (byte-wise lexicographic, a shorter strict prefix
being smaller), the order used by `sort.Strings`. -/
def blockLt : List Nat → List Nat → Bool
  | [], [] => false
  | [], _ :: _ => true
  | _ :: _, [] => false
  | a :: as, b :: bs =>
      if a < b then true else if b < a then false else blockLt as bs

/-- `put` of the Azure variant.  `stageErr` is true iff the store's
`StageBlock` call fails.  The block ID is appended to `a.BlockIDs`
BEFORE the store call and is not removed on failure. -/
def put (st : State) (blobName : String) (offsetStr : String) (data : List Nat)
    (stageErr : Bool) : State × List AzCall × Bool :=
  if blobName = "" then (st, [], true)
  else
    let blockID := mkBlockID offsetStr
    (State.mk (st.blockIDs ++ [blockID]),
     [AzCall.stageBlock blobName blockID data], stageErr)

/-- `putblocklist` of the Azure variant: `sort.Strings(a.BlockIDs)` (an
ascending sort by Go string `<`), `CommitBlockList` with the sorted IDs,
then `a.BlockIDs = nil`.  `commitErr` is true iff the store's commit
fails. -/
def putblocklist (st : State) (blobName : String) (commitErr : Bool) :
    State × List AzCall × Bool :=
  if blobName = "" then (st, [], true)
  else
    (State.mk [], [AzCall.commitBlockList blobName (sortSliceStable blockLt st.blockIDs)],
     commitErr)

/-- The `(offset, count)` pair `get` passes to `blobURL.Download` (`none`
when the blob name is missing): each metadata value is parsed with
`strconv.ParseInt` and replaced by 0 on error.  In the azblob SDK a count
of 0 (`CountToEnd`) means "read to the end of the blob", so only
`(0, 0)` is a full-object read. -/
def downloadArgs (blobName : String) (offsetMd countMd : String) :
    Option (Int × Int) :=
  if blobName = "" then none
  else some ((parseInt64 offsetMd).getD 0, (parseInt64 countMd).getD 0)

/-- The numeric value of a decimal digit string, most significant digit
first. -/
def decValue (s : String) : Nat :=
  s.toList.foldl (fun a c => 10 * a + (c.toNat - 48)) 0

/-- `s` is a non-empty string of decimal digits without leading zeros
(`"0"` itself allowed). -/
def canonicalDec (s : String) : Bool :=
  !s.toList.isEmpty
  && s.toList.all (fun c => decide (48 ≤ c.toNat ∧ c.toNat ≤ 57))
  && (s.toList.length == 1 || decide (49 ≤ (s.toList.headD '0').toNat))

/-- The numeric value of a byte string of decimal digits. -/
def valB (l : List Nat) : Nat := l.foldl (fun a d => 10 * a + (d - 48)) 0

/-- The block IDs of the first commit-block-list call of a trace. -/
def commitIDs : List AzCall → List (List Nat)
  | [] => []
  | AzCall.commitBlockList _ ids :: _ => ids
  | _ :: rest => commitIDs rest

end AzureBlob

/-! # Theorems -/

theorem insertStable_perm {α : Type} (less : α → α → Bool) (l : List α) (p : α) :
    List.Perm (insertStable less l p) (p :: l) := by
  induction l with
  | nil => simp [insertStable]
  | cons q qs ih =>
      by_cases h : less p q
      · simp [insertStable, h]
      · simp only [insertStable, h, if_neg, Bool.false_eq_true, if_false]
        exact (ih.cons q).trans (List.Perm.swap p q qs)

theorem foldl_insertStable_perm {α : Type} (less : α → α → Bool) (l acc : List α) :
    List.Perm (l.foldl (insertStable less) acc) (acc ++ l) := by
  induction l generalizing acc with
  | nil => simp
  | cons x xs ih =>
      have h1 : List.Perm (xs.foldl (insertStable less) (insertStable less acc x))
          (insertStable less acc x ++ xs) := ih _
      refine (List.foldl_cons .. ▸ h1).trans ?_
      have h2 : List.Perm (insertStable less acc x ++ xs) ((x :: acc) ++ xs) :=
        (insertStable_perm less acc x).append_right xs
      exact h2.trans (by simpa using (@List.perm_middle _ x acc xs).symm)

theorem sortSliceStable_perm {α : Type} (less : α → α → Bool) (l : List α) :
    List.Perm (sortSliceStable less l) l := by
  simpa [sortSliceStable] using foldl_insertStable_perm less l []

theorem mem_insertStable {α : Type} (less : α → α → Bool) (l : List α) (p x : α) :
    x ∈ insertStable less l p ↔ x = p ∨ x ∈ l := by
  have := (insertStable_perm less l p).mem_iff (a := x)
  simpa using this

theorem insertStable_sorted {α : Type} (key : α → Int) (l : List α) (p : α)
    (h : l.Pairwise (fun a b => key a ≤ key b)) :
    (insertStable (fun a b => decide (key a < key b)) l p).Pairwise
      (fun a b => key a ≤ key b) := by
  induction l with
  | nil => simp [insertStable]
  | cons q qs ih =>
      rcases List.pairwise_cons.mp h with ⟨hq, hqs⟩
      by_cases hpq : key p < key q
      · simp only [insertStable, decide_eq_true hpq, if_true]
        refine List.pairwise_cons.mpr ⟨?_, h⟩
        intro b hb
        rcases List.mem_cons.mp hb with hb | hb
        · exact le_of_lt (hb ▸ hpq)
        · exact le_of_lt (lt_of_lt_of_le hpq (hq b hb))
      · simp only [insertStable, decide_eq_false hpq, Bool.false_eq_true, if_false]
        refine List.pairwise_cons.mpr ⟨?_, ih hqs⟩
        intro b hb
        rcases (mem_insertStable _ qs p b).mp hb with hb | hb
        · exact hb ▸ le_of_not_lt hpq
        · exact hq b hb

theorem sortSliceStable_sorted {α : Type} (key : α → Int) (l : List α) :
    (sortSliceStable (fun a b => decide (key a < key b)) l).Pairwise
      (fun a b => key a ≤ key b) := by
  suffices h : ∀ acc : List α, acc.Pairwise (fun a b => key a ≤ key b) →
      (l.foldl (insertStable (fun a b => decide (key a < key b))) acc).Pairwise
        (fun a b => key a ≤ key b) by
    exact h [] (by simp)
  induction l with
  | nil => intro acc hacc; simpa using hacc
  | cons x xs ih =>
      intro acc hacc
      exact List.foldl_cons .. ▸ ih _ (insertStable_sorted key acc x hacc)

namespace S3PerKey

theorem lookupB_eraseB_self (m : List (String × Backup)) (k : String) :
    lookupB (eraseB m k) k = none := by
  induction m with
  | nil => rfl
  | cons p rest ih =>
      by_cases h : p.1 = k
      · rw [eraseB, if_pos h]; exact ih
      · rw [eraseB, if_neg h, lookupB, if_neg h]; exact ih

theorem lookupB_eraseB_ne (m : List (String × Backup)) (k k' : String) (h : k' ≠ k) :
    lookupB (eraseB m k) k' = lookupB m k' := by
  induction m with
  | nil => rfl
  | cons p rest ih =>
      by_cases hp : p.1 = k
      · have hne : p.1 ≠ k' := by rw [hp]; exact fun hc => h hc.symm
        rw [eraseB, if_pos hp, ih, lookupB, if_neg hne]
      · rw [eraseB, if_neg hp, lookupB, lookupB, ih]

theorem lookupB_insertB_self (m : List (String × Backup)) (k : String) (v : Backup) :
    lookupB (insertB m k v) k = some v := by
  simp [insertB, lookupB]

theorem lookupB_insertB_ne (m : List (String × Backup)) (k k' : String) (v : Backup)
    (h : k' ≠ k) : lookupB (insertB m k v) k' = lookupB m k' := by
  have hne : k ≠ k' := fun hc => h hc.symm
  rw [insertB, lookupB, if_neg hne, lookupB_eraseB_ne m k k' h]

end S3PerKey


/-! ## C10 -/

namespace AzureBlob

/-- C10: `put` of the Azure variant appends the block ID it builds to
`BlockIDs` before the `StageBlock` store call, and the ID stays in the
list when that call fails (`stageErr = true`): a failed `put` returns the
error but still mutates session state, and a later `putblocklist`
includes the failed block's ID in the block list it commits. -/
theorem put_failure_still_records_blockID (st : State)
    (blobName offsetStr name2 : String) (data : List Nat) (er : Bool)
    (h1 : blobName ≠ "") (h2 : name2 ≠ "") :
    (put st blobName offsetStr data true).2.2 = true ∧
    (put st blobName offsetStr data true).1.blockIDs =
      st.blockIDs ++ [mkBlockID offsetStr] ∧
    mkBlockID offsetStr ∈
      commitIDs (putblocklist (put st blobName offsetStr data true).1 name2 er).2.1 := by
  refine ⟨by simp [put, h1], by simp [put, h1], ?_⟩
  have hmem : mkBlockID offsetStr ∈
      sortSliceStable blockLt (st.blockIDs ++ [mkBlockID offsetStr]) :=
    ((sortSliceStable_perm blockLt _).mem_iff).mpr (by simp)
  simpa [put, putblocklist, h1, h2, commitIDs] using hmem

/-- Witness for C10 at a concrete input. -/
theorem put_failure_still_records_blockID_witness :
    (put (State.mk []) "n" "5" [] true).2.2 = true ∧
    (put (State.mk []) "n" "5" [] true).1.blockIDs =
      ([] : List (List Nat)) ++ [mkBlockID "5"] ∧
    mkBlockID "5" ∈
      commitIDs (putblocklist (put (State.mk []) "n" "5" [] true).1 "n" false).2.1 :=
  put_failure_still_records_blockID (State.mk []) "n" "5" "n" [] false
    (by decide) (by decide)

end AzureBlob

/-! ## C4 -/

namespace S3PerKey

/-- C4 counterexample: a concrete `putblocklist` whose
`CompleteMultipartUpload` call fails (state holds one recorded part)
returns the error but issues NO abort call to the store — the trace is
the single complete call — contradicting the claim that an abort is
issued on every commit failure. -/
theorem putblocklist_commit_failure_issues_no_abort :
    (putblocklist ⟨"b", [("k", ⟨2, ⟨"b", "k", "u"⟩, [⟨⟨"e", 1⟩, 7⟩]⟩)]⟩ "k"
        (some ⟨"b", "k", "u"⟩) true).2.1 =
      [StoreCall.completeMultipart "b" "k" "u" [⟨"e", 1⟩]] ∧
    (putblocklist ⟨"b", [("k", ⟨2, ⟨"b", "k", "u"⟩, [⟨⟨"e", 1⟩, 7⟩]⟩)]⟩ "k"
        (some ⟨"b", "k", "u"⟩) true).2.2 = true := by
  decide

/-- C4 amended: on a commit failure both S3 variants remove/reset the
local session state and surface the error, but neither issues an abort
to the store (the partial remote upload may leak). -/
theorem putblocklist_commit_failure_removes_session_without_abort
    (st : State) (key : String) (b : Backup) (cr : Option MultipartUploadOutput)
    (h : lookupB st.backups key = some b) :
    ((putblocklist st key cr true).2.2 = true ∧
      lookupB (putblocklist st key cr true).1.backups key = none ∧
      (putblocklist st key cr true).2.1.countP StoreCall.isAbort = 0) ∧
    ∀ (sst : S3Shared.State) (mu : MultipartUploadOutput) (etag : String),
      sst.multipartResponse = some mu →
      (S3Shared.putblocklist sst (some etag) true).2.2 = true ∧
      (S3Shared.putblocklist sst (some etag) true).1.multipartResponse = none ∧
      (S3Shared.putblocklist sst (some etag) true).2.1.countP StoreCall.isAbort = 0 := by
  constructor
  · refine ⟨?_, ?_, ?_⟩
    · simp [putblocklist, initbackup, h]
    · simp [putblocklist, initbackup, h, lookupB_eraseB_self]
    · simp [putblocklist, initbackup, h, StoreCall.isAbort]
  · intro sst mu etag hmu
    refine ⟨?_, ?_, ?_⟩
    · simp [S3Shared.putblocklist, hmu]
    · simp [S3Shared.putblocklist, hmu]
    · simp [S3Shared.putblocklist, hmu, StoreCall.isAbort]

/-- Witness for the amended C4 at concrete inputs. -/
theorem putblocklist_commit_failure_removes_session_without_abort_witness :
    ((putblocklist ⟨"b", [("k", ⟨2, ⟨"b", "k", "u"⟩, [⟨⟨"e", 1⟩, 7⟩]⟩)]⟩ "k"
          (some ⟨"b", "k", "u"⟩) true).2.2 = true ∧
      lookupB (putblocklist ⟨"b", [("k", ⟨2, ⟨"b", "k", "u"⟩, [⟨⟨"e", 1⟩, 7⟩]⟩)]⟩ "k"
          (some ⟨"b", "k", "u"⟩) true).1.backups "k" = none ∧
      (putblocklist ⟨"b", [("k", ⟨2, ⟨"b", "k", "u"⟩, [⟨⟨"e", 1⟩, 7⟩]⟩)]⟩ "k"
          (some ⟨"b", "k", "u"⟩) true).2.1.countP StoreCall.isAbort = 0) ∧
    ((S3Shared.putblocklist ⟨"b", 1, some ⟨"b", "k", "u"⟩, [], [3]⟩ (some "e") true).2.2 = true ∧
      (S3Shared.putblocklist ⟨"b", 1, some ⟨"b", "k", "u"⟩, [], [3]⟩ (some "e")
          true).1.multipartResponse = none ∧
      (S3Shared.putblocklist ⟨"b", 1, some ⟨"b", "k", "u"⟩, [], [3]⟩ (some "e")
          true).2.1.countP StoreCall.isAbort = 0) :=
  have h := putblocklist_commit_failure_removes_session_without_abort
    ⟨"b", [("k", ⟨2, ⟨"b", "k", "u"⟩, [⟨⟨"e", 1⟩, 7⟩]⟩)]⟩ "k"
    ⟨2, ⟨"b", "k", "u"⟩, [⟨⟨"e", 1⟩, 7⟩]⟩ (some ⟨"b", "k", "u"⟩) (by decide)
  ⟨h.1, h.2 ⟨"b", 1, some ⟨"b", "k", "u"⟩, [], [3]⟩ ⟨"b", "k", "u"⟩ "e" rfl⟩

end S3PerKey

/-! ## C5 -/

namespace S3Shared

/-- C5 (code bug in the shared-field variant): `put` on a fresh instance
whose `CreateMultipartUpload` fails DISCARDS the error
(`s.MultipartResponse, _ = ...`).  With a small chunk, the call buffers
the bytes and returns success (`false`): no session is registered and no
part upload is attempted, but — contradicting the claim and the spec —
the error is NOT propagated to the caller.  The per-key variant does
propagate it: its `put` on the same failing input returns a non-nil
error, registers nothing and uploads nothing. -/
theorem put_create_failure_error_swallowed :
    (put (initState "b") "k" [1] none none =
      some ({ initState "b" with buffer := [1] },
        [StoreCall.createMultipart "b" "k"], false)) ∧
    (S3PerKey.put ⟨"b", []⟩ "k" 0 [1] none (some "e") =
      (⟨"b", []⟩, [StoreCall.createMultipart "b" "k"], true)) := by
  decide

end S3Shared

/-! ## C6 -/

namespace S3Shared

/-- C6 counterexample: in the shared-field variant session state is NOT
kept per blob key.  A `put` for key `"a"` creates the (single) session
and leaves byte `1` in the (single) pending buffer; the subsequent `put`
for the different key `"c"` appends its byte to that same buffer
(`[1, 2]`) inside the session created for `"a"` — so the `put` on one
key changed the session state another key operates on. -/
theorem put_shared_buffer_interference :
    (put (initState "b") "a" [1] (some ⟨"b", "a", "u"⟩) (some "e") =
      some ({ initState "b" with multipartResponse := some ⟨"b", "a", "u"⟩, buffer := [1] },
        [StoreCall.createMultipart "b" "a"], false)) ∧
    (put { initState "b" with multipartResponse := some ⟨"b", "a", "u"⟩, buffer := [1] }
        "c" [2] none (some "e") =
      some ({ initState "b" with multipartResponse := some ⟨"b", "a", "u"⟩, buffer := [1, 2] },
        [], false)) := by
  decide

end S3Shared

namespace S3PerKey

/-- C6 amended: the claimed frame property does hold for the per-key
variant: a `put` or `putblocklist` on `key` leaves the session entry of
every other key unchanged. -/
theorem ops_leave_other_keys_unchanged (st : State) (key k' : String)
    (off : Int) (data : List Nat) (cr : Option MultipartUploadOutput)
    (ur : Option String) (ce : Bool) (h : k' ≠ key) :
    lookupB (put st key off data cr ur).1.backups k' = lookupB st.backups k' ∧
    lookupB (putblocklist st key cr ce).1.backups k' = lookupB st.backups k' := by
  constructor
  · cases hl : lookupB st.backups key with
    | some b =>
        cases ur with
        | none =>
            simp [put, initbackup, hl, lookupB_eraseB_ne _ _ _ h]
        | some etag =>
            simp [put, initbackup, hl, lookupB_insertB_ne _ _ _ _ h]
    | none =>
        cases cr with
        | none => simp [put, initbackup, hl]
        | some out =>
            cases ur with
            | none =>
                simp [put, initbackup, hl, lookupB_eraseB_ne _ _ _ h,
                  lookupB_insertB_ne _ _ _ _ h]
            | some etag =>
                simp [put, initbackup, hl, lookupB_insertB_ne _ _ _ _ h]
  · cases hl : lookupB st.backups key with
    | some b =>
        simp [putblocklist, initbackup, hl, lookupB_eraseB_ne _ _ _ h]
    | none =>
        cases cr with
        | none => simp [putblocklist, initbackup, hl]
        | some out =>
            simp [putblocklist, initbackup, hl, lookupB_eraseB_ne _ _ _ h,
              lookupB_insertB_ne _ _ _ _ h]

/-- Witness for the amended C6 at a concrete input. -/
theorem ops_leave_other_keys_unchanged_witness :
    lookupB (put ⟨"b", [("x", ⟨1, ⟨"b", "x", "u"⟩, []⟩)]⟩ "k" 0 [1]
        (some ⟨"b", "k", "u"⟩) (some "e")).1.backups "x" =
      lookupB [("x", ⟨1, ⟨"b", "x", "u"⟩, []⟩)] "x" ∧
    lookupB (putblocklist ⟨"b", [("x", ⟨1, ⟨"b", "x", "u"⟩, []⟩)]⟩ "k"
        (some ⟨"b", "k", "u"⟩) false).1.backups "x" =
      lookupB [("x", ⟨1, ⟨"b", "x", "u"⟩, []⟩)] "x" :=
  ops_leave_other_keys_unchanged ⟨"b", [("x", ⟨1, ⟨"b", "x", "u"⟩, []⟩)]⟩ "k" "x" 0 [1]
    (some ⟨"b", "k", "u"⟩) (some "e") false (by decide)

end S3PerKey


/-! ## C2 -/

namespace S3PerKey

/-- C2 counterexample: in the per-key variant there is no pending buffer
at all.  A `put` of a single byte — far below MIN_PART_SIZE — on a fresh
session performs ONE upload-part call and succeeds, contradicting the
claim that a call whose accumulated bytes are below the threshold
performs zero upload-part calls. -/
theorem put_below_threshold_still_uploads :
    (put ⟨"b", []⟩ "k" 0 [1] (some ⟨"b", "k", "u"⟩) (some "e")).2.1.countP
        StoreCall.isUpload = 1 ∧
    (1 : Nat) < S3Shared.MinBufferSize ∧
    (put ⟨"b", []⟩ "k" 0 [1] (some ⟨"b", "k", "u"⟩) (some "e")).2.2 = false := by
  decide

end S3PerKey

namespace S3Shared

/-- C2 amended: the buffering discipline holds in the shared-field
variant: (a) when the accumulated buffer including this call's chunk is
below `MinBufferSize`, `put` performs no upload-part call and returns
success; (b) once it reaches the threshold (given a session exists or a
create response arrives), exactly one upload-part call is issued for the
crossing.  In the per-key variant there is no buffer: every `put` issues
exactly one upload-part call regardless of size. -/
theorem put_buffering_threshold (st : State) (key : String) (data : List Nat)
    (cr : Option MultipartUploadOutput) (ur : Option String) :
    ((st.buffer ++ data).length < MinBufferSize →
      (callsOf (put st key data cr ur)).countP StoreCall.isUpload = 0 ∧
      errOf (put st key data cr ur) = some false) ∧
    (MinBufferSize ≤ (st.buffer ++ data).length →
      st.multipartResponse ≠ none ∨ cr ≠ none →
      (callsOf (put st key data cr ur)).countP StoreCall.isUpload = 1) := by
  constructor
  · intro h
    simp only [List.length_append] at h
    cases hm : st.multipartResponse with
    | some mu =>
        simp [put, hm, callsOf, errOf, h, StoreCall.isUpload]
    | none =>
        simp [put, hm, callsOf, errOf, h, StoreCall.isUpload]
  · intro h hsess
    have hnl : ¬ st.buffer.length + data.length < MinBufferSize := by
      simp only [List.length_append] at h; exact not_lt.mpr h
    cases hm : st.multipartResponse with
    | some mu =>
        cases ur with
        | none => simp [put, hm, callsOf, hnl, StoreCall.isUpload]
        | some etag => simp [put, hm, callsOf, hnl, StoreCall.isUpload]
    | none =>
        cases hc : cr with
        | none =>
            rcases hsess with hs | hs
            · exact absurd hm hs
            · exact absurd hc hs
        | some out =>
            cases ur with
            | none => simp [put, hm, hc, callsOf, hnl, StoreCall.isUpload]
            | some etag => simp [put, hm, hc, callsOf, hnl, StoreCall.isUpload]

/-- Witness for the amended C2: a buffering-only call on a fresh
instance, and a threshold-crossing call on a full buffer. -/
theorem put_buffering_threshold_witness :
    ((callsOf (put (initState "b") "k" [1] none none)).countP StoreCall.isUpload = 0 ∧
      errOf (put (initState "b") "k" [1] none none) = some false) ∧
    (callsOf (put ⟨"b", 1, some ⟨"b", "k", "u"⟩, [], List.replicate MinBufferSize 0⟩
        "k" [] none (some "e"))).countP StoreCall.isUpload = 1 :=
  ⟨(put_buffering_threshold (initState "b") "k" [1] none none).1
      (by simp [initState, MinBufferSize]),
   (put_buffering_threshold ⟨"b", 1, some ⟨"b", "k", "u"⟩, [], List.replicate
        MinBufferSize 0⟩ "k" [] none (some "e")).2
      (by simp) (Or.inl (by simp))⟩

end S3Shared


/-! ## C8 -/

namespace AzureBlob

/-- C8 counterexample: in the Azure variant a `get` whose `count`
metadata is unparseable while `offset` parses does NOT fall back to a
full-object read: offset and count default to 0 independently, so the
arguments passed to `Download` are `(5, 0)` — a read from byte 5 to the
end of the blob (azblob count 0 means `CountToEnd`) — not the
full-object request `(0, 0)`. -/
theorem get_partial_parse_is_not_full_read :
    downloadArgs "n" "5" "x" = some (5, 0) ∧ ((5, 0) : Int × Int) ≠ (0, 0) := by
  decide

end AzureBlob

/-- C8 amended: the S3 variants behave as claimed when the range end
does not overflow — a ranged read covering `offset .. offset+count-1`
when BOTH metadata values parse (the end computed in Go's wrapping
`int64` arithmetic, the identity whenever `offset+count-1` fits in
`int64`), a full-object read when either fails to parse.  The Azure
variant instead defaults each of offset and count to 0 independently and
always passes them to `Download` (count 0 meaning read-to-end), so a
full-object read happens only when both end up 0. -/
theorem get_range_semantics (bucket blobName offsetMd countMd : String) :
    (∀ offset count : Int, parseInt64 offsetMd = some offset →
      parseInt64 countMd = some count →
      s3Get bucket blobName offsetMd countMd =
        GetRequest.ranged bucket blobName
          ("bytes=" ++ offsetMd ++ "-" ++ toString (wrapInt64 (offset + count - 1)))) ∧
    (∀ offset count : Int, -9223372036854775808 ≤ offset + count - 1 →
      offset + count - 1 ≤ 9223372036854775807 →
      wrapInt64 (offset + count - 1) = offset + count - 1) ∧
    (parseInt64 offsetMd = none ∨ parseInt64 countMd = none →
      s3Get bucket blobName offsetMd countMd = GetRequest.full bucket blobName) ∧
    (blobName ≠ "" →
      AzureBlob.downloadArgs blobName offsetMd countMd =
        some ((parseInt64 offsetMd).getD 0, (parseInt64 countMd).getD 0)) := by
  refine ⟨?_, ?_, ?_, ?_⟩
  · intro offset count h1 h2
    simp [s3Get, h1, h2]
  · intro offset count hlo hhi
    rw [wrapInt64]
    omega
  · intro h
    rcases h with h | h
    · simp [s3Get, h]
    · cases ho : parseInt64 offsetMd with
      | none => simp [s3Get, ho, h]
      | some o => simp [s3Get, ho, h]
  · intro h
    simp [AzureBlob.downloadArgs, h]

/-- Witness for the amended C8 at concrete inputs. -/
theorem get_range_semantics_witness :
    s3Get "B" "n" "5" "7" = GetRequest.ranged "B" "n"
      ("bytes=" ++ "5" ++ "-" ++ toString (wrapInt64 ((5 : Int) + 7 - 1))) ∧
    wrapInt64 ((5 : Int) + 7 - 1) = (5 : Int) + 7 - 1 ∧
    s3Get "B" "n" "5" "x" = GetRequest.full "B" "n" ∧
    AzureBlob.downloadArgs "n" "5" "x" =
      some ((parseInt64 "5").getD 0, (parseInt64 "x").getD 0) :=
  ⟨(get_range_semantics "B" "n" "5" "7").1 5 7 (by decide) (by decide),
   (get_range_semantics "B" "n" "5" "7").2.1 5 7 (by decide) (by decide),
   (get_range_semantics "B" "n" "5" "x").2.2.1 (Or.inr (by decide)),
   (get_range_semantics "B" "n" "5" "x").2.2.2 (by decide)⟩

/-! ## C3 -/

namespace S3PerKey

/-- C3: a `put` whose upload-part call fails aborts and invalidates the
session, in both variants.  Per-key variant (session `b` active at
`key`): the call returns the error, issues exactly one abort, removes the
key's entry, and a subsequent `putblocklist` on the same key behaves as
with no active session — it starts afresh and commits an EMPTY parts
list, never the parts recorded before the failure.  Shared-field variant
(active session `smu`, buffer at threshold): the failing `put` issues one
abort, returns the error, clears the session, and `putblocklist` on a
session-less state is a no-op. -/
theorem put_upload_failure_aborts_and_removes_session
    (st : State) (key : String) (off : Int) (data : List Nat) (b : Backup)
    (cr : Option MultipartUploadOutput)
    (sst : S3Shared.State) (k2 : String) (d2 : List Nat)
    (cr2 : Option MultipartUploadOutput) (ur2 : Option String) (ce2 : Bool)
    (smu : MultipartUploadOutput)
    (h : lookupB st.backups key = some b)
    (h2 : sst.multipartResponse = some smu)
    (h3 : S3Shared.MinBufferSize ≤ (sst.buffer ++ d2).length) :
    ((put st key off data cr none).2.2 = true ∧
      (put st key off data cr none).2.1.countP StoreCall.isAbort = 1 ∧
      lookupB (put st key off data cr none).1.backups key = none ∧
      ∀ (mu2 : MultipartUploadOutput) (ce : Bool),
        completeParts ((putblocklist (put st key off data cr none).1 key
          (some mu2) ce).2.1) = some []) ∧
    ((S3Shared.callsOf (S3Shared.put sst k2 d2 cr2 none)).countP
        StoreCall.isAbort = 1 ∧
      S3Shared.errOf (S3Shared.put sst k2 d2 cr2 none) = some true ∧
      (S3Shared.put sst k2 d2 cr2 none).map (fun r => r.1.multipartResponse) =
        some none ∧
      ∀ s : S3Shared.State, s.multipartResponse = none →
        S3Shared.putblocklist s ur2 ce2 = (s, [], false)) := by
  constructor
  · refine ⟨?_, ?_, ?_, ?_⟩
    · simp [put, initbackup, h]
    · simp [put, initbackup, h, StoreCall.isAbort]
    · simp [put, initbackup, h, lookupB_eraseB_self]
    · intro mu2 ce
      simp [put, initbackup, h, putblocklist, lookupB_eraseB_self,
        lookupB_insertB_self, sortSliceStable, completeParts, StoreCall.isComplete]
  · have hnl : ¬ sst.buffer.length + d2.length < S3Shared.MinBufferSize := by
      simp only [List.length_append] at h3; exact not_lt.mpr h3
    refine ⟨?_, ?_, ?_, ?_⟩
    · simp [S3Shared.put, h2, hnl, S3Shared.callsOf, StoreCall.isAbort]
    · simp [S3Shared.put, h2, hnl, S3Shared.errOf]
    · simp [S3Shared.put, h2, hnl]
    · intro s hs
      simp [S3Shared.putblocklist, hs]

/-- Witness for C3 at concrete inputs (per-key: a one-part session whose
next upload fails; shared: a full buffer whose upload fails). -/
theorem put_upload_failure_aborts_and_removes_session_witness :
    ((put ⟨"b", [("k", ⟨2, ⟨"b", "k", "u"⟩, [⟨⟨"e", 1⟩, 7⟩]⟩)]⟩ "k" 9 [1]
        (some ⟨"b", "k", "u"⟩) none).2.2 = true ∧
      (put ⟨"b", [("k", ⟨2, ⟨"b", "k", "u"⟩, [⟨⟨"e", 1⟩, 7⟩]⟩)]⟩ "k" 9 [1]
        (some ⟨"b", "k", "u"⟩) none).2.1.countP StoreCall.isAbort = 1 ∧
      lookupB (put ⟨"b", [("k", ⟨2, ⟨"b", "k", "u"⟩, [⟨⟨"e", 1⟩, 7⟩]⟩)]⟩ "k" 9 [1]
        (some ⟨"b", "k", "u"⟩) none).1.backups "k" = none ∧
      ∀ (mu2 : MultipartUploadOutput) (ce : Bool),
        completeParts ((putblocklist (put ⟨"b", [("k", ⟨2, ⟨"b", "k", "u"⟩,
          [⟨⟨"e", 1⟩, 7⟩]⟩)]⟩ "k" 9 [1] (some ⟨"b", "k", "u"⟩) none).1 "k"
          (some mu2) ce).2.1) = some []) ∧
    ((S3Shared.callsOf (S3Shared.put ⟨"b", 1, some ⟨"b", "k", "u"⟩, [],
        List.replicate S3Shared.MinBufferSize 0⟩ "k" [] none none)).countP
        StoreCall.isAbort = 1 ∧
      S3Shared.errOf (S3Shared.put ⟨"b", 1, some ⟨"b", "k", "u"⟩, [],
        List.replicate S3Shared.MinBufferSize 0⟩ "k" [] none none) = some true ∧
      (S3Shared.put ⟨"b", 1, some ⟨"b", "k", "u"⟩, [],
        List.replicate S3Shared.MinBufferSize 0⟩ "k" [] none none).map
        (fun r => r.1.multipartResponse) = some none ∧
      ∀ s : S3Shared.State, s.multipartResponse = none →
        S3Shared.putblocklist s (some "e") false = (s, [], false)) :=
  put_upload_failure_aborts_and_removes_session
    ⟨"b", [("k", ⟨2, ⟨"b", "k", "u"⟩, [⟨⟨"e", 1⟩, 7⟩]⟩)]⟩ "k" 9 [1]
    ⟨2, ⟨"b", "k", "u"⟩, [⟨⟨"e", 1⟩, 7⟩]⟩ (some ⟨"b", "k", "u"⟩)
    ⟨"b", 1, some ⟨"b", "k", "u"⟩, [], List.replicate S3Shared.MinBufferSize 0⟩
    "k" [] none (some "e") false ⟨"b", "k", "u"⟩ (by decide) rfl (by simp)

end S3PerKey


/-! ## C7 -/

namespace S3PerKey

theorem intRange_succ_right (m : Int) (n : Nat) :
    intRange m (n + 1) = intRange m n ++ [m + n] := by
  induction n generalizing m with
  | zero => simp [intRange]
  | succ n ih =>
      show m :: intRange (m + 1) (n + 1) = (m :: intRange (m + 1) n) ++ [m + ((n : Int) + 1)]
      rw [ih, List.cons_append]
      congr 3
      omega

theorem mem_intRange_le (n : Nat) (m x : Int) (h : x ∈ intRange m n) : m ≤ x := by
  induction n generalizing m with
  | zero => simp [intRange] at h
  | succ n ih =>
      rcases List.mem_cons.mp h with h | h
      · exact h.ge
      · exact le_of_lt (lt_of_lt_of_le (by omega) (ih (m + 1) h))

theorem intRange_pairwise_lt (n : Nat) (m : Int) :
    (intRange m n).Pairwise (· < ·) := by
  induction n generalizing m with
  | zero => simp [intRange]
  | succ n ih =>
      refine List.pairwise_cons.mpr ⟨?_, ih (m + 1)⟩
      intro x hx
      exact lt_of_lt_of_le (by omega) (mem_intRange_le n (m + 1) x hx)

/-- The per-session bookkeeping invariant of the per-key variant. -/
theorem stepOp_preserves_part_numbers (st : State) (op : Op)
    (h : ∀ k b, lookupB st.backups k = some b →
      b.partNum = (b.completedParts.length : Int) + 1 ∧
      b.completedParts.map (fun p => p.completedPart.partNumber) =
        intRange 1 b.completedParts.length) :
    ∀ k b, lookupB (stepOp st op).backups k = some b →
      b.partNum = (b.completedParts.length : Int) + 1 ∧
      b.completedParts.map (fun p => p.completedPart.partNumber) =
        intRange 1 b.completedParts.length := by
  cases op with
  | oput key off data cr ur =>
      cases hl : lookupB st.backups key with
      | some b0 =>
          cases ur with
          | none =>
              have hstate : (put st key off data cr none).1 =
                  { st with backups := eraseB st.backups key } := by
                simp [put, initbackup, hl]
              intro k b hb
              rw [stepOp, hstate] at hb
              by_cases hk : k = key
              · subst hk; rw [lookupB_eraseB_self] at hb; exact absurd hb (by simp)
              · rw [lookupB_eraseB_ne _ _ _ hk] at hb; exact h k b hb
          | some etag =>
              have hstate : (put st key off data cr (some etag)).1 =
                  { st with backups := insertB st.backups key (Backup.mk
                      (b0.partNum + 1) b0.multipartResponse
                      (b0.completedParts ++ [⟨⟨etag, b0.partNum⟩, off⟩])) } := by
                simp [put, initbackup, hl]
              intro k b hb
              rw [stepOp, hstate] at hb
              by_cases hk : k = key
              · subst hk
                rw [lookupB_insertB_self] at hb
                rcases h k b0 hl with ⟨h1, h2⟩
                cases Option.some.inj hb
                refine ⟨by simp; omega, ?_⟩
                have hpn : b0.partNum = 1 + (b0.completedParts.length : Int) := by omega
                simp only [List.map_append, List.length_append, h2, List.map_cons,
                  List.map_nil, List.length_cons, List.length_nil]
                rw [show b0.completedParts.length + (0 + 1) =
                    b0.completedParts.length + 1 by omega,
                  intRange_succ_right, hpn]
              · rw [lookupB_insertB_ne _ _ _ _ hk] at hb; exact h k b hb
      | none =>
          cases cr with
          | none =>
              have hstate : (put st key off data none ur).1 = st := by
                simp [put, initbackup, hl]
              intro k b hb
              rw [stepOp, hstate] at hb
              exact h k b hb
          | some out =>
              cases ur with
              | none =>
                  have hstate : (put st key off data (some out) none).1 =
                      { st with backups := eraseB (insertB st.backups key (Backup.mk 1 out [])) key } := by
                    simp [put, initbackup, hl, lookupB_insertB_self]
                  intro k b hb
                  rw [stepOp, hstate] at hb
                  by_cases hk : k = key
                  · subst hk; rw [lookupB_eraseB_self] at hb; exact absurd hb (by simp)
                  · rw [lookupB_eraseB_ne _ _ _ hk, lookupB_insertB_ne _ _ _ _ hk] at hb
                    exact h k b hb
              | some etag =>
                  have hstate : (put st key off data (some out) (some etag)).1 =
                      { st with backups := insertB (insertB st.backups key (Backup.mk 1 out [])) key (Backup.mk 2 out [⟨⟨etag, 1⟩, off⟩]) } := by
                    simp [put, initbackup, hl, lookupB_insertB_self]
                  intro k b hb
                  rw [stepOp, hstate] at hb
                  by_cases hk : k = key
                  · subst hk
                    rw [lookupB_insertB_self] at hb
                    cases Option.some.inj hb
                    exact ⟨by simp, by simp [intRange]⟩
                  · rw [lookupB_insertB_ne _ _ _ _ hk,
                      lookupB_insertB_ne _ _ _ _ hk] at hb
                    exact h k b hb
  | oblocklist key cr ce =>
      cases hl : lookupB st.backups key with
      | some b0 =>
          have hstate : (putblocklist st key cr ce).1 =
              { st with backups := eraseB st.backups key } := by
            simp [putblocklist, initbackup, hl]
          intro k b hb
          rw [stepOp, hstate] at hb
          by_cases hk : k = key
          · subst hk; rw [lookupB_eraseB_self] at hb; exact absurd hb (by simp)
          · rw [lookupB_eraseB_ne _ _ _ hk] at hb; exact h k b hb
      | none =>
          cases cr with
          | none =>
              have hstate : (putblocklist st key none ce).1 = st := by
                simp [putblocklist, initbackup, hl]
              intro k b hb
              rw [stepOp, hstate] at hb
              exact h k b hb
          | some out =>
              have hstate : (putblocklist st key (some out) ce).1 =
                  { st with backups := eraseB (insertB st.backups key (Backup.mk 1 out [])) key } := by
                simp [putblocklist, initbackup, hl, lookupB_insertB_self]
              intro k b hb
              rw [stepOp, hstate] at hb
              by_cases hk : k = key
              · subst hk; rw [lookupB_eraseB_self] at hb; exact absurd hb (by simp)
              · rw [lookupB_eraseB_ne _ _ _ hk, lookupB_insertB_ne _ _ _ _ hk] at hb
                exact h k b hb

/-- C7: in every session reachable by any sequence of `put` /
`putblocklist` operations from a fresh instance, the next part number is
one more than the number of recorded parts (it starts at 1 and is
incremented exactly once per successful part upload), the recorded part
numbers are exactly `1, 2, ..., n` in order — strictly increasing — and
they contain no duplicates. -/
theorem session_part_numbers_invariant (bucket : String) (ops : List Op)
    (k : String) (b : Backup)
    (h : lookupB (runOps ⟨bucket, []⟩ ops).backups k = some b) :
    b.partNum = (b.completedParts.length : Int) + 1 ∧
    b.completedParts.map (fun p => p.completedPart.partNumber) =
      intRange 1 b.completedParts.length ∧
    (b.completedParts.map (fun p => p.completedPart.partNumber)).Pairwise (· < ·) ∧
    (b.completedParts.map (fun p => p.completedPart.partNumber)).Nodup := by
  have main : ∀ (l : List Op) (st : State),
      (∀ k b, lookupB st.backups k = some b →
        b.partNum = (b.completedParts.length : Int) + 1 ∧
        b.completedParts.map (fun p => p.completedPart.partNumber) =
          intRange 1 b.completedParts.length) →
      ∀ k b, lookupB (runOps st l).backups k = some b →
        b.partNum = (b.completedParts.length : Int) + 1 ∧
        b.completedParts.map (fun p => p.completedPart.partNumber) =
          intRange 1 b.completedParts.length := by
    intro l
    induction l with
    | nil => intro st hst; simpa [runOps] using hst
    | cons op rest ih =>
        intro st hst
        have hstep := stepOp_preserves_part_numbers st op hst
        have := ih (stepOp st op) hstep
        simpa [runOps] using this
  have hinit : ∀ k b, lookupB (State.mk bucket []).backups k = some b →
      b.partNum = (b.completedParts.length : Int) + 1 ∧
      b.completedParts.map (fun p => p.completedPart.partNumber) =
        intRange 1 b.completedParts.length := by
    intro k b hb
    simp [lookupB] at hb
  rcases main ops ⟨bucket, []⟩ hinit k b h with ⟨h1, h2⟩
  refine ⟨h1, h2, ?_, ?_⟩
  · rw [h2]; exact intRange_pairwise_lt _ _
  · rw [h2]; exact (intRange_pairwise_lt _ _).imp ne_of_lt

/-- Witness for C7: one successful `put` on a fresh instance leaves the
session with `partNum = 2` and a single part numbered 1. -/
theorem session_part_numbers_invariant_witness :
    (2 : Int) = (([⟨⟨"e", 1⟩, 7⟩] : List Part).length : Int) + 1 ∧
    ([⟨⟨"e", 1⟩, 7⟩] : List Part).map (fun p => p.completedPart.partNumber) =
      intRange 1 ([⟨⟨"e", 1⟩, 7⟩] : List Part).length ∧
    (([⟨⟨"e", 1⟩, 7⟩] : List Part).map
      (fun p => p.completedPart.partNumber)).Pairwise (· < ·) ∧
    (([⟨⟨"e", 1⟩, 7⟩] : List Part).map
      (fun p => p.completedPart.partNumber)).Nodup := by
  have h := session_part_numbers_invariant "b"
    [Op.oput "k" 7 [1] (some ⟨"b", "k", "u"⟩) (some "e")] "k"
    ⟨2, ⟨"b", "k", "u"⟩, [⟨⟨"e", 1⟩, 7⟩]⟩ (by decide)
  exact h

end S3PerKey


/-! ## C9 -/

namespace AzureBlob

theorem valB_shift (l : List Nat) (a : Nat) :
    l.foldl (fun x d => 10 * x + (d - 48)) a = a * 10 ^ l.length + valB l := by
  induction l generalizing a with
  | nil => simp [valB]
  | cons d l ih =>
      show List.foldl _ (10 * a + (d - 48)) l =
        a * 10 ^ (d :: l).length + valB (d :: l)
      rw [ih]
      have h2 : valB (d :: l) = (d - 48) * 10 ^ l.length + valB l := by
        show List.foldl _ (10 * 0 + (d - 48)) l = _
        rw [ih]
        simp
      rw [h2, List.length_cons, pow_succ]
      ring

theorem valB_cons (d : Nat) (l : List Nat) :
    valB (d :: l) = (d - 48) * 10 ^ l.length + valB l := by
  show List.foldl _ (10 * 0 + (d - 48)) l = _
  rw [valB_shift]
  simp

theorem valB_lt_pow (l : List Nat) (h : ∀ d ∈ l, 48 ≤ d ∧ d ≤ 57) :
    valB l < 10 ^ l.length := by
  induction l with
  | nil => simp [valB]
  | cons d l ih =>
      have hd := h d (List.mem_cons_self d l)
      have hrest : valB l < 10 ^ l.length :=
        ih (fun x hx => h x (List.mem_cons_of_mem d hx))
      rw [valB_cons, List.length_cons]
      have h9 : d - 48 ≤ 9 := by omega
      calc (d - 48) * 10 ^ l.length + valB l
          ≤ 9 * 10 ^ l.length + valB l :=
            Nat.add_le_add_right (Nat.mul_le_mul_right _ h9) _
        _ < 9 * 10 ^ l.length + 10 ^ l.length := Nat.add_lt_add_left hrest _
        _ = 10 ^ (l.length + 1) := by rw [pow_succ]; ring

theorem pow_le_valB (d : Nat) (l : List Nat) (hd : 49 ≤ d) :
    10 ^ l.length ≤ valB (d :: l) := by
  rw [valB_cons]
  have h1 : 1 ≤ d - 48 := by omega
  calc 10 ^ l.length = 1 * 10 ^ l.length := (one_mul _).symm
    _ ≤ (d - 48) * 10 ^ l.length := Nat.mul_le_mul_right _ h1
    _ ≤ (d - 48) * 10 ^ l.length + valB l := Nat.le_add_right _ _

theorem blockLt_append_same (z u v : List Nat) :
    blockLt (z ++ u) (z ++ v) = blockLt u v := by
  induction z with
  | nil => rfl
  | cons a z ih => simp [blockLt, lt_irrefl, ih]

theorem valB_lt_of_head_lt (a b : Nat) (as bs : List Nat)
    (hlen : as.length = bs.length) (hab : a < b) (ha : 48 ≤ a)
    (has : ∀ d ∈ as, 48 ≤ d ∧ d ≤ 57) :
    valB (a :: as) < valB (b :: bs) := by
  rw [valB_cons, valB_cons, ← hlen]
  have h1 : valB as < 10 ^ as.length := valB_lt_pow as has
  have h2 : a - 48 + 1 ≤ b - 48 := by omega
  calc (a - 48) * 10 ^ as.length + valB as
      < (a - 48) * 10 ^ as.length + 10 ^ as.length := Nat.add_lt_add_left h1 _
    _ = (a - 48 + 1) * 10 ^ as.length := by ring
    _ ≤ (b - 48) * 10 ^ as.length := Nat.mul_le_mul_right _ h2
    _ ≤ (b - 48) * 10 ^ as.length + valB bs := Nat.le_add_right _ _

theorem blockLt_iff_valB_of_length_eq (xs ys : List Nat)
    (hlen : xs.length = ys.length)
    (hx : ∀ d ∈ xs, 48 ≤ d ∧ d ≤ 57) (hy : ∀ d ∈ ys, 48 ≤ d ∧ d ≤ 57) :
    (blockLt xs ys = true ↔ valB xs < valB ys) := by
  induction xs generalizing ys with
  | nil =>
      cases ys with
      | nil => simp [blockLt, valB]
      | cons b bs => simp at hlen
  | cons a as ih =>
      cases ys with
      | nil => simp at hlen
      | cons b bs =>
          have hlen' : as.length = bs.length := by simpa using hlen
          have ha := hx a (List.mem_cons_self a as)
          have hb := hy b (List.mem_cons_self b bs)
          have has : ∀ d ∈ as, 48 ≤ d ∧ d ≤ 57 :=
            fun d hd => hx d (List.mem_cons_of_mem a hd)
          have hbs : ∀ d ∈ bs, 48 ≤ d ∧ d ≤ 57 :=
            fun d hd => hy d (List.mem_cons_of_mem b hd)
          rcases lt_trichotomy a b with hab | hab | hab
          · have hbl : blockLt (a :: as) (b :: bs) = true := by
              simp [blockLt, hab]
            have hv : valB (a :: as) < valB (b :: bs) :=
              valB_lt_of_head_lt a b as bs hlen' hab ha.1 has
            simp [hbl, hv]
          · subst hab
            have hbl : blockLt (a :: as) (a :: bs) = blockLt as bs := by
              simp [blockLt, lt_irrefl]
            rw [hbl, ih bs hlen' has hbs, valB_cons, valB_cons, ← hlen']
            exact (Nat.add_lt_add_iff_left).symm
          · have hbl : blockLt (a :: as) (b :: bs) = false := by
              simp [blockLt, Nat.lt_asymm hab, hab]
            have hv : valB (b :: bs) < valB (a :: as) :=
              valB_lt_of_head_lt b a bs as hlen'.symm hab hb.1 hbs
            simp only [hbl, Bool.false_eq_true, false_iff]
            omega

theorem decValue_eq_valB (s : String) :
    decValue s = valB (s.toList.map Char.toNat) := by
  rw [decValue, valB, List.foldl_map]

/-- C9: the block ID built by `put` for an offset string of length at
most 64 is exactly 64 bytes long (padding bytes followed by the offset
string), and the construction is order-preserving: for offsets given as
non-empty decimal digit strings without leading zeros, the byte-wise
lexicographic order of the block IDs (the order of Go string `<`, used
by `sort.Strings` in `putblocklist`) coincides with the numeric order of
the offsets — so `putblocklist` commits blocks in ascending offset
order. -/
theorem blockID_construction_order_preserving (s t : String)
    (hs : canonicalDec s = true) (ht : canonicalDec t = true)
    (hls : s.length ≤ 64) (hlt : t.length ≤ 64) :
    (mkBlockID s).length = 64 ∧
    (blockLt (mkBlockID s) (mkBlockID t) = true ↔ decValue s < decValue t) := by
  have hsu := hs
  have htu := ht
  rw [canonicalDec, Bool.and_eq_true, Bool.and_eq_true] at hsu htu
  rcases hsu with ⟨⟨hsne, hsall⟩, hshead⟩
  rcases htu with ⟨⟨htne, htall⟩, hthead⟩
  have hsne' : s.toList ≠ [] := by
    intro hc; rw [hc] at hsne; simp at hsne
  have htne' : t.toList ≠ [] := by
    intro hc; rw [hc] at htne; simp at htne
  have hsdig : ∀ c ∈ s.toList, 48 ≤ c.toNat ∧ c.toNat ≤ 57 := by
    intro c hc
    have := List.all_eq_true.mp hsall c hc
    exact of_decide_eq_true this
  have htdig : ∀ c ∈ t.toList, 48 ≤ c.toNat ∧ c.toNat ≤ 57 := by
    intro c hc
    have := List.all_eq_true.mp htall c hc
    exact of_decide_eq_true this
  have hsdigB : ∀ d ∈ s.toList.map Char.toNat, 48 ≤ d ∧ d ≤ 57 := by
    intro d hd
    rcases List.mem_map.mp hd with ⟨c, hc, rfl⟩
    exact hsdig c hc
  have htdigB : ∀ d ∈ t.toList.map Char.toNat, 48 ≤ d ∧ d ≤ 57 := by
    intro d hd
    rcases List.mem_map.mp hd with ⟨c, hc, rfl⟩
    exact htdig c hc
  have hslen : s.toList.length = s.length := rfl
  have htlen : t.toList.length = t.length := rfl
  have hslen1 : 1 ≤ s.length := by
    rcases List.exists_cons_of_ne_nil hsne' with ⟨c, cs, hcc⟩
    rw [← hslen, hcc]; simp
  have htlen1 : 1 ≤ t.length := by
    rcases List.exists_cons_of_ne_nil htne' with ⟨c, cs, hcc⟩
    rw [← htlen, hcc]; simp
  have hlen64 : (mkBlockID s).length = 64 := by
    simp [mkBlockID, hslen]
    omega
  refine ⟨hlen64, ?_⟩
  rw [decValue_eq_valB, decValue_eq_valB]
  rcases lt_trichotomy s.length t.length with hc | hc | hc
  · -- s shorter: blockLt is true and the value is smaller
    rcases List.exists_cons_of_ne_nil htne' with ⟨c, cs, hcc⟩
    have hthead' : t.toList.length = 1 ∨ 49 ≤ (t.toList.headD '0').toNat := by
      have h := hthead
      simp only [Bool.or_eq_true, beq_iff_eq, decide_eq_true_eq] at h
      exact h
    have hc49 : 49 ≤ c.toNat := by
      rcases hthead' with h1 | h1
      · exfalso
        have h2 : t.length = 1 := by rw [← htlen]; exact h1
        omega
      · rw [hcc] at h1; simpa using h1
    have hys : t.toList.map Char.toNat = c.toNat :: cs.map Char.toNat := by
      rw [hcc]; simp
    have hbslen : (cs.map Char.toNat).length = t.length - 1 := by
      have : t.toList.length = cs.length + 1 := by rw [hcc]; simp
      simp only [List.length_map]
      omega
    obtain ⟨j, hj⟩ : ∃ j, t.length - s.length = j + 1 :=
      ⟨t.length - s.length - 1, by omega⟩
    have hsplit : mkBlockID s =
        List.replicate (64 - t.length) 0 ++
          (List.replicate (t.length - s.length) 0 ++ s.toList.map Char.toNat) := by
      rw [mkBlockID, ← List.append_assoc, ← List.replicate_add]
      congr 2
      omega
    have hbl : blockLt (mkBlockID s) (mkBlockID t) = true := by
      rw [hsplit, mkBlockID, blockLt_append_same, hj, List.replicate_succ, hys]
      simp [blockLt]
      omega
    have hv : valB (s.toList.map Char.toNat) < valB (t.toList.map Char.toNat) := by
      calc valB (s.toList.map Char.toNat)
          < 10 ^ (s.toList.map Char.toNat).length := valB_lt_pow _ hsdigB
        _ ≤ 10 ^ (t.length - 1) := by
            apply Nat.pow_le_pow_right (by omega)
            simp only [List.length_map, hslen]
            omega
        _ = 10 ^ (cs.map Char.toNat).length := by rw [hbslen]
        _ ≤ valB (c.toNat :: cs.map Char.toNat) :=
            pow_le_valB _ _ hc49
        _ = valB (t.toList.map Char.toNat) := by rw [hys]
    simp only [hbl, eq_self_iff_true, true_iff]
    exact hv
  · -- equal length: reduce to the equal-length digit comparison
    have hsplit : mkBlockID t =
        List.replicate (64 - s.length) 0 ++ t.toList.map Char.toNat := by
      rw [mkBlockID, hc]
    rw [mkBlockID, hsplit, blockLt_append_same]
    exact blockLt_iff_valB_of_length_eq _ _
      (by simp [hslen, htlen, hc]) hsdigB htdigB
  · -- t shorter: blockLt is false and the value comparison fails
    rcases List.exists_cons_of_ne_nil hsne' with ⟨c, cs, hcc⟩
    have hshead' : s.toList.length = 1 ∨ 49 ≤ (s.toList.headD '0').toNat := by
      have h := hshead
      simp only [Bool.or_eq_true, beq_iff_eq, decide_eq_true_eq] at h
      exact h
    have hc49 : 49 ≤ c.toNat := by
      rcases hshead' with h1 | h1
      · exfalso
        have h2 : s.length = 1 := by rw [← hslen]; exact h1
        omega
      · rw [hcc] at h1; simpa using h1
    have hxs : s.toList.map Char.toNat = c.toNat :: cs.map Char.toNat := by
      rw [hcc]; simp
    have hbslen : (cs.map Char.toNat).length = s.length - 1 := by
      have : s.toList.length = cs.length + 1 := by rw [hcc]; simp
      simp only [List.length_map]
      omega
    obtain ⟨j, hj⟩ : ∃ j, s.length - t.length = j + 1 :=
      ⟨s.length - t.length - 1, by omega⟩
    have hsplit : mkBlockID t =
        List.replicate (64 - s.length) 0 ++
          (List.replicate (s.length - t.length) 0 ++ t.toList.map Char.toNat) := by
      rw [mkBlockID, ← List.append_assoc, ← List.replicate_add]
      congr 2
      omega
    have hbl : blockLt (mkBlockID s) (mkBlockID t) = false := by
      rw [hsplit, mkBlockID, blockLt_append_same, hj, List.replicate_succ, hxs]
      have h1 : ¬ c.toNat < 0 := by omega
      have h2 : 0 < c.toNat := by omega
      simp [blockLt, h1, h2]
    have hv : valB (t.toList.map Char.toNat) < valB (s.toList.map Char.toNat) := by
      calc valB (t.toList.map Char.toNat)
          < 10 ^ (t.toList.map Char.toNat).length := valB_lt_pow _ htdigB
        _ ≤ 10 ^ (s.length - 1) := by
            apply Nat.pow_le_pow_right (by omega)
            simp only [List.length_map, htlen]
            omega
        _ = 10 ^ (cs.map Char.toNat).length := by rw [hbslen]
        _ ≤ valB (c.toNat :: cs.map Char.toNat) :=
            pow_le_valB _ _ hc49
        _ = valB (s.toList.map Char.toNat) := by rw [hxs]
    simp only [hbl, Bool.false_eq_true, false_iff]
    omega

/-- Witness for C9 at the concrete offsets `"5"` and `"12"`. -/
theorem blockID_construction_order_preserving_witness :
    (mkBlockID "5").length = 64 ∧
    (blockLt (mkBlockID "5") (mkBlockID "12") = true ↔
      decValue "5" < decValue "12") :=
  blockID_construction_order_preserving "5" "12"
    (by decide) (by decide) (by decide) (by decide)

end AzureBlob


/-! ## C1 -/

theorem find?_append_of_all_false {α : Type} (p : α → Bool) (l1 l2 : List α)
    (h : ∀ x ∈ l1, p x = false) : (l1 ++ l2).find? p = l2.find? p := by
  induction l1 with
  | nil => rfl
  | cons a l1 ih =>
      rw [List.cons_append, List.find?_cons, h a (List.mem_cons_self a l1)]
      exact ih fun x hx => h x (List.mem_cons_of_mem a hx)

theorem find?_append_of_some {α : Type} (p : α → Bool) (l1 l2 : List α) (x : α)
    (h : l1.find? p = some x) : (l1 ++ l2).find? p = some x := by
  induction l1 with
  | nil => simp [List.find?] at h
  | cons a l1 ih =>
      rw [List.find?_cons] at h
      rw [List.cons_append, List.find?_cons]
      cases hp : p a with
      | true => rw [hp] at h; exact h
      | false => rw [hp] at h; exact ih h

theorem insertStable_map {α β : Type} (less : β → β → Bool) (less' : α → α → Bool)
    (g : α → β) (hcomm : ∀ a b, less (g a) (g b) = less' a b) (l : List α) (p : α) :
    insertStable less (l.map g) (g p) = (insertStable less' l p).map g := by
  induction l with
  | nil => rfl
  | cons q qs ih =>
      simp only [List.map_cons, insertStable, hcomm]
      cases h : less' p q with
      | true => simp
      | false => simp [ih]

theorem sortSliceStable_map {α β : Type} (less : β → β → Bool) (less' : α → α → Bool)
    (g : α → β) (hcomm : ∀ a b, less (g a) (g b) = less' a b) (l : List α) :
    sortSliceStable less (l.map g) = (sortSliceStable less' l).map g := by
  suffices h : ∀ acc : List α,
      (l.map g).foldl (insertStable less) (acc.map g) =
        (l.foldl (insertStable less') acc).map g by
    simpa [sortSliceStable] using h []
  induction l with
  | nil => intro acc; simp
  | cons x xs ih =>
      intro acc
      rw [List.map_cons, List.foldl_cons, List.foldl_cons,
        insertStable_map less less' g hcomm acc x]
      exact ih (insertStable less' acc x)

namespace S3PerKey

theorem eraseB_eraseB (m : List (String × Backup)) (k : String) :
    eraseB (eraseB m k) k = eraseB m k := by
  induction m with
  | nil => rfl
  | cons p rest ih =>
      by_cases h : p.1 = k
      · simp [eraseB, h, ih]
      · simp [eraseB, h, ih]

theorem insertB_insertB (m : List (String × Backup)) (k : String) (v v' : Backup) :
    insertB (insertB m k v) k v' = insertB m k v' := by
  simp [insertB, eraseB, eraseB_eraseB]

theorem expParts_eq_map_numberFrom (m : Int) (chunks : List (Int × List Nat)) :
    expParts m chunks =
      (numberFrom m chunks).map (fun t => Part.mk ⟨"", t.1⟩ t.2.1) := by
  induction chunks generalizing m with
  | nil => rfl
  | cons c cs ih => cases c with | mk off d => simp [expParts, numberFrom, ih]

theorem numberFrom_map_snd (m : Int) (chunks : List (Int × List Nat)) :
    (numberFrom m chunks).map (fun t => t.2) = chunks := by
  induction chunks generalizing m with
  | nil => rfl
  | cons c cs ih => simp [numberFrom, ih]

theorem numberFrom_le (m : Int) (chunks : List (Int × List Nat))
    (j : Int) (c : Int × List Nat) (h : (j, c) ∈ numberFrom m chunks) : m ≤ j := by
  induction chunks generalizing m with
  | nil => simp [numberFrom] at h
  | cons c0 cs ih =>
      rcases List.mem_cons.mp h with h | h
      · cases h; exact le_refl _
      · exact le_of_lt (lt_of_lt_of_le (by omega) (ih (m + 1) h))

theorem find?_expUploads (mu : MultipartUploadOutput)
    (chunks : List (Int × List Nat)) (m j : Int) (c : Int × List Nat)
    (h : (j, c) ∈ numberFrom m chunks) :
    (expUploads mu m chunks).find? (StoreCall.isUploadFor j) =
      some (StoreCall.uploadPart mu.bucket mu.key mu.uploadId j c.2
        (c.2.length : Int)) := by
  induction chunks generalizing m with
  | nil => simp [numberFrom] at h
  | cons c0 cs ih =>
      cases c0 with
      | mk off d =>
          rcases List.mem_cons.mp h with h | h
          · cases h
            simp [expUploads, List.find?_cons, StoreCall.isUploadFor]
          · have hj : m + 1 ≤ j := numberFrom_le (m + 1) cs j c h
            have hne : (StoreCall.isUploadFor j)
                (StoreCall.uploadPart mu.bucket mu.key mu.uploadId m d
                  (d.length : Int)) = false := by
              simp [StoreCall.isUploadFor]
              omega
            rw [expUploads, List.find?_cons, hne]
            exact ih (m + 1) h

theorem expUploads_not_complete (mu : MultipartUploadOutput) (m : Int)
    (chunks : List (Int × List Nat)) :
    ∀ x ∈ expUploads mu m chunks, StoreCall.isComplete x = false := by
  induction chunks generalizing m with
  | nil => simp [expUploads]
  | cons c cs ih =>
      cases c with
      | mk off d =>
          intro x hx
          rcases List.mem_cons.mp hx with hx | hx
          · subst hx; rfl
          · exact ih (m + 1) x hx

end S3PerKey


namespace S3PerKey

theorem runPuts_spec (chunks : List (Int × List Nat)) (st : State) (key : String)
    (mu : MultipartUploadOutput) (b : Backup)
    (h : lookupB st.backups key = some b) :
    lookupB (runPuts st key mu chunks).1.backups key =
      some (Backup.mk (b.partNum + (chunks.length : Int)) b.multipartResponse
        (b.completedParts ++ expParts b.partNum chunks)) ∧
    (runPuts st key mu chunks).2 = expUploads b.multipartResponse b.partNum chunks := by
  induction chunks generalizing st b with
  | nil =>
      constructor
      · simp only [runPuts, expParts, List.length_nil, Int.Nat.cast_ofNat_Int,
          List.append_nil, h]
        congr 1
        cases b with
        | mk pn mr cp => simp
      · simp [runPuts, expUploads]
  | cons c cs ih =>
      cases c with
      | mk off d =>
          have hput : put st key off d (some mu) (some "") =
              (State.mk st.bucket (insertB st.backups key (Backup.mk
                  (b.partNum + 1) b.multipartResponse
                  (b.completedParts ++ [⟨⟨"", b.partNum⟩, off⟩]))),
               [StoreCall.uploadPart b.multipartResponse.bucket
                  b.multipartResponse.key b.multipartResponse.uploadId b.partNum d
                  (d.length : Int)], false) := by
            simp [put, initbackup, h]
          have hrec := ih (State.mk st.bucket (insertB st.backups key (Backup.mk
              (b.partNum + 1) b.multipartResponse
              (b.completedParts ++ [⟨⟨"", b.partNum⟩, off⟩]))))
            (Backup.mk (b.partNum + 1) b.multipartResponse
              (b.completedParts ++ [⟨⟨"", b.partNum⟩, off⟩]))
            (by simpa using lookupB_insertB_self st.backups key _)
          constructor
          · simp only [runPuts, hput]
            rw [hrec.1]
            simp only [Option.some.injEq, Backup.mk.injEq, expParts,
              List.append_assoc, List.length_cons]
            exact ⟨by push_cast; ring, trivial, by simp⟩
          · simp only [runPuts, hput]
            rw [hrec.2]
            rfl

theorem sessionTrace_eq (bucket key : String) (mu : MultipartUploadOutput)
    (chunks : List (Int × List Nat)) :
    sessionTrace bucket key mu chunks =
      StoreCall.createMultipart bucket key :: (expUploads mu 1 chunks ++
        [StoreCall.completeMultipart mu.bucket mu.key mu.uploadId
          ((sortSliceStable lessByOffset (expParts 1 chunks)).map
            (·.completedPart))]) := by
  cases chunks with
  | nil =>
      simp [sessionTrace, runPuts, putblocklist, initbackup, lookupB,
        lookupB_insertB_self, expUploads, expParts, sortSliceStable]
  | cons c cs =>
      cases c with
      | mk off d =>
          have hput : put (State.mk bucket []) key off d (some mu) (some "") =
              (State.mk bucket (insertB [] key (Backup.mk 2 mu [⟨⟨"", 1⟩, off⟩])),
               [StoreCall.createMultipart bucket key,
                StoreCall.uploadPart mu.bucket mu.key mu.uploadId 1 d
                  (d.length : Int)], false) := by
            simp [put, initbackup, lookupB, lookupB_insertB_self, insertB_insertB]
          have hrec := runPuts_spec cs
            (State.mk bucket (insertB [] key (Backup.mk 2 mu [⟨⟨"", 1⟩, off⟩])))
            key mu (Backup.mk 2 mu [⟨⟨"", 1⟩, off⟩])
            (by simpa using lookupB_insertB_self [] key _)
          have hbl : (putblocklist (runPuts (State.mk bucket (insertB [] key
              (Backup.mk 2 mu [⟨⟨"", 1⟩, off⟩]))) key mu cs).1 key
              (some mu) false).2.1 =
              [StoreCall.completeMultipart mu.bucket mu.key mu.uploadId
                ((sortSliceStable lessByOffset (expParts 1 ((off, d) :: cs))).map
                  (·.completedPart))] := by
            simp only [putblocklist, initbackup, hrec.1]
            simp [expParts]
          simp only [sessionTrace, runPuts, hput]
          rw [hrec.2, hbl]
          rfl

end S3PerKey


namespace S3PerKey

/-- C1: for ANY sequence of `put` calls for one key with client-declared
offsets (in any arrival order) followed by `putblocklist`, the per-key
variant passes the completed parts to the store's complete-multipart
call sorted by original client-declared offset ascending: the parts list
in the trace is exactly the stable-by-offset reordering of the recorded
parts (sorted and a permutation of the arrival-ordered parts), and the
object the store assembles from the committed listing — concatenating
the bytes uploaded under each listed part number, in listed order —
equals the concatenation of the chunks sorted (stably) by offset, i.e.
bytes are ordered by offset, not by arrival. -/
theorem putblocklist_commits_parts_in_offset_order
    (bucket key : String) (mu : MultipartUploadOutput)
    (chunks : List (Int × List Nat)) :
    completeParts (sessionTrace bucket key mu chunks) =
      some ((sortSliceStable lessByOffset (expParts 1 chunks)).map
        (·.completedPart)) ∧
    (sortSliceStable lessByOffset (expParts 1 chunks)).Pairwise
      (fun a b => a.offset ≤ b.offset) ∧
    List.Perm (sortSliceStable lessByOffset (expParts 1 chunks))
      (expParts 1 chunks) ∧
    assembledObject (sessionTrace bucket key mu chunks) =
      ((sortSliceStable lessByChunkOffset chunks).map (fun c => c.2)).flatten := by
  have htr := sessionTrace_eq bucket key mu chunks
  have hcp : completeParts (sessionTrace bucket key mu chunks) =
      some ((sortSliceStable lessByOffset (expParts 1 chunks)).map
        (·.completedPart)) := by
    rw [htr, completeParts, List.find?_cons]
    have h0 : StoreCall.isComplete (StoreCall.createMultipart bucket key) = false :=
      rfl
    rw [h0, find?_append_of_all_false _ _ _ (expUploads_not_complete mu 1 chunks)]
    simp [List.find?, StoreCall.isComplete]
  refine ⟨hcp, sortSliceStable_sorted Part.offset (expParts 1 chunks),
    sortSliceStable_perm _ _, ?_⟩
  have hgP : expParts 1 chunks =
      (numberFrom 1 chunks).map (fun t => Part.mk ⟨"", t.1⟩ t.2.1) :=
    expParts_eq_map_numberFrom 1 chunks
  have hsortP : sortSliceStable lessByOffset (expParts 1 chunks) =
      (sortSliceStable (fun a b : Int × Int × List Nat => decide (a.2.1 < b.2.1))
        (numberFrom 1 chunks)).map (fun t => Part.mk ⟨"", t.1⟩ t.2.1) := by
    rw [hgP]
    exact sortSliceStable_map _ _ _ (fun a b => rfl) _
  have hsortC : (sortSliceStable (fun a b : Int × Int × List Nat =>
      decide (a.2.1 < b.2.1)) (numberFrom 1 chunks)).map (fun t => t.2) =
      sortSliceStable lessByChunkOffset chunks := by
    have h := sortSliceStable_map lessByChunkOffset
      (fun a b : Int × Int × List Nat => decide (a.2.1 < b.2.1))
      (fun t => t.2) (fun a b => rfl) (numberFrom 1 chunks)
    rw [numberFrom_map_snd] at h
    exact h.symm
  have hbody : ∀ t ∈ sortSliceStable (fun a b : Int × Int × List Nat =>
      decide (a.2.1 < b.2.1)) (numberFrom 1 chunks),
      uploadBody (sessionTrace bucket key mu chunks) t.1 = t.2.2 := by
    intro t ht
    have hmem : t ∈ numberFrom 1 chunks :=
      ((sortSliceStable_perm _ _).mem_iff).mp ht
    have hmem' : (t.1, t.2) ∈ numberFrom 1 chunks := by simpa using hmem
    have hfind := find?_expUploads mu chunks 1 t.1 t.2 hmem'
    rw [uploadBody, htr, List.find?_cons]
    have h0 : StoreCall.isUploadFor t.1
        (StoreCall.createMultipart bucket key) = false := rfl
    rw [h0, find?_append_of_some _ _ _ _ hfind]
  simp only [assembledObject, hcp]
  rw [hsortP, ← hsortC, List.map_map, List.map_map, List.map_map]
  congr 1
  apply List.map_congr_left
  intro t ht
  show uploadBody (sessionTrace bucket key mu chunks) t.1 = t.2.2
  exact hbody t ht

end S3PerKey


namespace AzureBlob

/-- C1 counterexample: in the Azure variant the committed blocks are NOT
ordered by client-declared offset for every session.  Staging offset
`"00"` (value 0) and then offset `"1"` (value 1), `putblocklist` commits
the offset-1 block BEFORE the offset-0 block: the NUL padding makes the
shorter offset string sort first under Go string `<`, so `sort.Strings`
orders `mkBlockID "1"` (63 NULs then `'1'`) ahead of `mkBlockID "00"`
(62 NULs then `'0'`, `'0'`), and the committed bytes are not in
ascending offset order.  Numeric-offset ordering holds only for
canonical decimal offsets (non-empty, no leading zeros, length ≤ 64). -/
theorem putblocklist_commits_out_of_offset_order :
    commitIDs (putblocklist (put (put (State.mk []) "n" "00" [5] false).1
        "n" "1" [6] false).1 "n" false).2.1 =
      [mkBlockID "1", mkBlockID "00"] ∧
    decValue "00" < decValue "1" := by
  decide

end AzureBlob

end Spec2Proof
